import Mathlib

/-!
Verification of the recipe-generation script scripts/ucsc/create-ucsc-packages.py.

The script is embedded shallowly: strings are lists of characters, the tar
archive is a list of path/is-directory entries, regular-expression matches are
translated to explicit character-class scanners (the classes of each regex are
pairwise disjoint at every adjacent position, so maximal munch coincides with
the regex semantics), and the file system touched by the main loop is an
explicit state value.  All definitions are executable.
-/

namespace Ucsc

/-- Convert a string literal to the character-list representation used here. -/
def s2l (s : String) : List Char := s.data

/-! ### Character classes (ASCII fragments of the regex classes used by the script)

Python re classes, restricted to ASCII, which is the alphabet of the FOOTER
file the script consumes.
-/

/-- ASCII fragment of the Python regex class for whitespace. -/
def isSpaceChar (c : Char) : Bool :=
  c == ' ' || c == '\t' || c == '\n' || c == '\r' || c == '\x0b' || c == '\x0c'

/-- ASCII fragment of the Python regex class for word characters. -/
def isWordChar (c : Char) : Bool := c.isAlphanum || c == '_'

/-- The literal character class of the header regex. -/
def isEq (c : Char) : Bool := c == '='

/-! ### List-of-characters utilities mirroring Python string primitives -/

/-- Boolean test: the first list is a prefix of the second. -/
def isPrefixL : List Char → List Char → Bool
  | [], _ => true
  | _ :: _, [] => false
  | a :: as, b :: bs => a == b && isPrefixL as bs

/-- Boolean test: the first list occurs as a contiguous substring of the
second.  This is the meaning of the Python expression program in path. -/
def isInfixL (needle : List Char) : List Char → Bool
  | [] => isPrefixL needle []
  | c :: cs => isPrefixL needle (c :: cs) || isInfixL needle cs

/-- Worker for replaceAllL.  The fuel argument is always at least the length
of the scanned list, so the first equation is never reached; it makes the
recursion structural and hence kernel-reducible. -/
def replaceAllAux (old new : List Char) : Nat → List Char → List Char
  | 0, l => l
  | _ + 1, [] => []
  | fuel + 1, c :: cs =>
    if !old.isEmpty && isPrefixL old (c :: cs) then
      new ++ replaceAllAux old new fuel (List.drop (old.length - 1) cs)
    else
      c :: replaceAllAux old new fuel cs

/-- Python str.replace for a non-empty pattern: every non-overlapping
occurrence of old, scanning left to right, is replaced by new.  The script
only calls it with the non-empty pattern "./userApps/". -/
def replaceAllL (old new l : List Char) : List Char :=
  replaceAllAux old new l.length l

/-- Python string comparison: lexicographic on code points. -/
def lexLe : List Char → List Char → Bool
  | [], _ => true
  | _ :: _, [] => false
  | a :: as, b :: bs =>
    if a.toNat < b.toNat then true
    else if b.toNat < a.toNat then false
    else lexLe as bs

/-- One insertion step of an ascending insertion sort under lexLe. -/
def orderedInsert (a : List Char) : List (List Char) → List (List Char)
  | [] => [a]
  | b :: bs => if lexLe a b then a :: b :: bs else b :: orderedInsert a bs

/-- Ascending insertion sort under lexLe; embeds the Python builtin sorted
applied to a list of strings. -/
def insertionSortL : List (List Char) → List (List Char)
  | [] => []
  | a :: as => orderedInsert a (insertionSortL as)

/-! ### The archive listing and the source-directory locator -/

/-- One entry of the tar archive listing: its path string and whether the tar
member is a directory (the Python side asks the open tarfile for the latter). -/
structure ArchiveEntry where
  path : List Char
  isDir : Bool
deriving DecidableEq

/-- The prefix stripped from the selected directory. -/
def uaPrefix : List Char := s2l "./userApps/"

/-- The hits list of program_subdir: the archive entries that are directories
and whose path contains the program name as a substring. -/
def locatorHits (program : List Char) (entries : List ArchiveEntry) : List (List Char) :=
  (entries.filter (fun e => isInfixL program e.path && e.isDir)).map ArchiveEntry.path

/-- Embedding of program_subdir: if any hits survive, return the
lexicographically smallest one with the leading "./userApps/" removed;
otherwise return none (the Python bare return). -/
def program_subdir (program : List Char) (entries : List ArchiveEntry) : Option (List Char) :=
  if (locatorHits program entries).length = 0 then none
  else some (replaceAllL uaPrefix [] ((insertionSortL (locatorHits program entries)).headD []))

/-! ### Order lemmas for lexLe and the insertion sort -/

theorem lexLe_refl (a : List Char) : lexLe a a = true := by
  induction a with
  | nil => rfl
  | cons c cs ih => simp [lexLe, ih]

theorem lexLe_total (a b : List Char) : lexLe a b = true ∨ lexLe b a = true := by
  induction a generalizing b with
  | nil => left; rfl
  | cons c cs ih =>
    cases b with
    | nil => right; rfl
    | cons d ds =>
      rcases Nat.lt_trichotomy c.toNat d.toNat with h | h | h
      · left; simp [lexLe, h]
      · have hcd : ¬ c.toNat < d.toNat := by omega
        have hdc : ¬ d.toNat < c.toNat := by omega
        rcases ih ds with h1 | h1
        · left; simp [lexLe, hcd, hdc, h1]
        · right; simp [lexLe, hcd, hdc, h1]
      · right; simp [lexLe, h]

theorem lexLe_trans {a b c : List Char} (h1 : lexLe a b = true) (h2 : lexLe b c = true) :
    lexLe a c = true := by
  induction a generalizing b c with
  | nil => rfl
  | cons x xs ih =>
    cases b with
    | nil => simp [lexLe] at h1
    | cons y ys =>
      cases c with
      | nil => simp [lexLe] at h2
      | cons z zs =>
        simp only [lexLe] at h1 h2 ⊢
        by_cases hxy : x.toNat < y.toNat
        · by_cases hyz : y.toNat < z.toNat
          · have : x.toNat < z.toNat := by omega
            simp [this]
          · by_cases hzy : z.toNat < y.toNat
            · simp [hyz, hzy] at h2
            · have : x.toNat < z.toNat := by omega
              simp [this]
        · by_cases hyx : y.toNat < x.toNat
          · simp [hxy, hyx] at h1
          · have hxy' : x.toNat = y.toNat := by omega
            by_cases hyz : y.toNat < z.toNat
            · have : x.toNat < z.toNat := by omega
              simp [this]
            · by_cases hzy : z.toNat < y.toNat
              · simp [hyz, hzy] at h2
              · have h1' : lexLe xs ys = true := by simpa [hxy, hyx] using h1
                have h2' : lexLe ys zs = true := by simpa [hyz, hzy] using h2
                have hxz : ¬ x.toNat < z.toNat := by omega
                have hzx : ¬ z.toNat < x.toNat := by omega
                simp [hxz, hzx, ih h1' h2']

theorem mem_orderedInsert {x a : List Char} {l : List (List Char)} :
    x ∈ orderedInsert a l ↔ x = a ∨ x ∈ l := by
  induction l with
  | nil => simp [orderedInsert]
  | cons b bs ih =>
    by_cases h : lexLe a b = true
    · simp [orderedInsert, h]
      try tauto
    · simp [orderedInsert, h, ih]
      try tauto

theorem mem_insertionSortL {x : List Char} {l : List (List Char)} :
    x ∈ insertionSortL l ↔ x ∈ l := by
  induction l with
  | nil => simp [insertionSortL]
  | cons a as ih => simp [insertionSortL, mem_orderedInsert, ih]

/-- The pairwise relation used to state sortedness. -/
def LexP (a b : List Char) : Prop := lexLe a b = true

theorem pairwise_orderedInsert {a : List Char} {l : List (List Char)}
    (h : l.Pairwise LexP) : (orderedInsert a l).Pairwise LexP := by
  induction l with
  | nil => simp [orderedInsert, LexP]
  | cons b bs ih =>
    rcases List.pairwise_cons.mp h with ⟨hb, hbs⟩
    by_cases hab : lexLe a b = true
    · simp only [orderedInsert, hab, if_true]
      refine List.pairwise_cons.mpr ⟨?_, h⟩
      intro x hx
      rcases List.mem_cons.mp hx with hx | hx
      · subst hx; exact hab
      · exact lexLe_trans hab (hb x hx)
    · simp only [orderedInsert, hab, if_false]
      refine List.pairwise_cons.mpr ⟨?_, ih hbs⟩
      intro x hx
      rcases mem_orderedInsert.mp hx with hx | hx
      · rw [hx]
        rcases lexLe_total a b with h1 | h1
        · exact absurd h1 hab
        · exact h1
      · exact hb x hx

theorem pairwise_insertionSortL (l : List (List Char)) :
    (insertionSortL l).Pairwise LexP := by
  induction l with
  | nil => simp [insertionSortL]
  | cons a as ih => exact pairwise_orderedInsert ih

theorem length_orderedInsert (a : List Char) (l : List (List Char)) :
    (orderedInsert a l).length = l.length + 1 := by
  induction l with
  | nil => rfl
  | cons b bs ih =>
    by_cases h : lexLe a b = true
    · simp [orderedInsert, h]
    · simp [orderedInsert, h, ih]

theorem length_insertionSortL (l : List (List Char)) :
    (insertionSortL l).length = l.length := by
  induction l with
  | nil => rfl
  | cons a as ih => simp [insertionSortL, length_orderedInsert, ih]

/-- The head of the insertion sort of a list is a lexLe lower bound of the
list. -/
theorem head_insertionSortL_lb {l : List (List Char)} {m : List Char}
    {t : List (List Char)} (heq : insertionSortL l = m :: t) :
    ∀ x ∈ l, lexLe m x = true := by
  intro x hx
  have hx' : x ∈ insertionSortL l := mem_insertionSortL.mpr hx
  rw [heq] at hx'
  rcases List.mem_cons.mp hx' with h1 | h1
  · rw [h1]; exact lexLe_refl m
  · have hp := pairwise_insertionSortL l
    rw [heq] at hp
    exact (List.pairwise_cons.mp hp).1 x h1

theorem mem_locatorHits {program p : List Char} {entries : List ArchiveEntry} :
    p ∈ locatorHits program entries ↔
      ∃ e ∈ entries, isInfixL program e.path = true ∧ e.isDir = true ∧ e.path = p := by
  simp only [locatorHits, List.mem_map, List.mem_filter, Bool.and_eq_true]
  constructor
  · rintro ⟨e, ⟨he, h1, h2⟩, hp⟩
    exact ⟨e, he, h1, h2, hp⟩
  · rintro ⟨e, he, h1, h2, hp⟩
    exact ⟨e, ⟨he, h1, h2⟩, hp⟩

/-- C1: for every program name and archive listing, program_subdir filters to
the directory-type entries whose path contains the program name as a
substring; it returns none exactly when no entry qualifies, and otherwise the
returned path is the lexicographically smallest qualifying path (with the
leading "./userApps/" stripped, as the script does).  On the listing
containing toolA and toolAB directories, the program toolA selects the toolA
entry and not toolAB. -/
theorem c1_program_subdir_locator (program : List Char) (entries : List ArchiveEntry) :
    (program_subdir program entries = none ↔
      ∀ e ∈ entries, ¬(isInfixL program e.path = true ∧ e.isDir = true))
    ∧ (∀ r, program_subdir program entries = some r →
        ∃ e ∈ entries, isInfixL program e.path = true ∧ e.isDir = true ∧
          r = replaceAllL uaPrefix [] e.path ∧
          ∀ e' ∈ entries, isInfixL program e'.path = true → e'.isDir = true →
            lexLe e.path e'.path = true)
    ∧ program_subdir (s2l "toolA")
        [⟨s2l "./userApps/kent/src/toolA/", true⟩, ⟨s2l "./userApps/kent/src/toolAB/", true⟩]
        = some (s2l "kent/src/toolA/") := by
  refine ⟨⟨?_, ?_⟩, ?_, by decide⟩
  · intro hnone e he hcontra
    have hmem : e.path ∈ locatorHits program entries :=
      mem_locatorHits.mpr ⟨e, he, hcontra.1, hcontra.2, rfl⟩
    have hlen : ¬ (locatorHits program entries).length = 0 := by
      intro h0
      rw [List.length_eq_zero.mp h0] at hmem
      exact absurd hmem (List.not_mem_nil _)
    unfold program_subdir at hnone
    rw [if_neg hlen] at hnone
    exact Option.noConfusion hnone
  · intro hall
    have h0 : (locatorHits program entries).length = 0 := by
      rw [List.length_eq_zero]
      by_contra hne
      rcases List.exists_mem_of_ne_nil _ hne with ⟨p, hp⟩
      rcases mem_locatorHits.mp hp with ⟨e, he, h1, h2, _⟩
      exact hall e he ⟨h1, h2⟩
    unfold program_subdir
    rw [if_pos h0]
  · intro r hr
    have hlen : ¬ (locatorHits program entries).length = 0 := by
      intro h0
      unfold program_subdir at hr
      rw [if_pos h0] at hr
      exact Option.noConfusion hr
    unfold program_subdir at hr
    rw [if_neg hlen, Option.some.injEq] at hr
    have hne : insertionSortL (locatorHits program entries) ≠ [] := by
      intro hnil
      apply hlen
      rw [← length_insertionSortL, hnil]
      rfl
    rcases List.exists_cons_of_ne_nil hne with ⟨m, t, hmt⟩
    have hhd : (insertionSortL (locatorHits program entries)).headD [] = m := by
      rw [hmt]; rfl
    have hm : m ∈ locatorHits program entries :=
      mem_insertionSortL.mp (by rw [hmt]; exact List.mem_cons_self m t)
    rcases mem_locatorHits.mp hm with ⟨e, he, h1, h2, hpath⟩
    refine ⟨e, he, h1, h2, ?_, ?_⟩
    · rw [← hr, hhd, hpath]
    · intro e' he' h1' h2'
      have hp' : e'.path ∈ locatorHits program entries :=
        mem_locatorHits.mpr ⟨e', he', h1', h2', rfl⟩
      rw [hpath]
      exact head_insertionSortL_lb hmt e'.path hp'

/-- Concrete evaluation of the locator claim: the example listing resolves to
the toolA entry, and the selected entry is a lower bound of all candidates. -/
theorem c1_program_subdir_locator_witness :
    program_subdir (s2l "toolA")
        [⟨s2l "./userApps/kent/src/toolA/", true⟩, ⟨s2l "./userApps/kent/src/toolAB/", true⟩]
        = some (s2l "kent/src/toolA/")
    ∧ ∃ e ∈ [ArchiveEntry.mk (s2l "./userApps/kent/src/toolA/") true,
              ArchiveEntry.mk (s2l "./userApps/kent/src/toolAB/") true],
        isInfixL (s2l "toolA") e.path = true ∧ e.isDir = true ∧
          s2l "kent/src/toolA/" = replaceAllL uaPrefix [] e.path ∧
          ∀ e' ∈ [ArchiveEntry.mk (s2l "./userApps/kent/src/toolA/") true,
                  ArchiveEntry.mk (s2l "./userApps/kent/src/toolAB/") true],
            isInfixL (s2l "toolA") e'.path = true → e'.isDir = true →
              lexLe e.path e'.path = true := by
  have h := c1_program_subdir_locator (s2l "toolA")
    [⟨s2l "./userApps/kent/src/toolA/", true⟩, ⟨s2l "./userApps/kent/src/toolAB/", true⟩]
  exact ⟨h.2.2, h.2.1 _ h.2.2⟩

/-! ### The FOOTER manifest parser

Lines are modelled without their trailing newline (the readline output with
the regex end anchor matching just before it).  The header regex is a run of
equals signs, whitespace, a captured word, whitespace and a run of equals
signs spanning the whole line; since the adjacent character classes are
pairwise disjoint, the greedy scanners below are exactly the regex.  The
summary regex is a word character, a lazily extended name part, the literal
separator " - ", and the rest of the line as description; laziness means the
split happens at the first separator occurrence at or after position one.
-/

/-- The separator of the summary regex. -/
def sepChars : List Char := s2l " - "

/-- Match of re_header against one (newline-stripped) line, returning the
captured program name. -/
def matchHeader (l : List Char) : Option (List Char) :=
  let e1 := l.takeWhile isEq
  let r1 := l.dropWhile isEq
  if e1.isEmpty then none else
  let s1 := r1.takeWhile isSpaceChar
  let r2 := r1.dropWhile isSpaceChar
  if s1.isEmpty then none else
  let w := r2.takeWhile isWordChar
  let r3 := r2.dropWhile isWordChar
  if w.isEmpty then none else
  let s2 := r3.takeWhile isSpaceChar
  let r4 := r3.dropWhile isSpaceChar
  if s2.isEmpty then none else
  let e2 := r4.takeWhile isEq
  let r5 := r4.dropWhile isEq
  if e2.isEmpty then none else
  if r5.isEmpty then some w else none

/-- Find the first occurrence of " - " in the list: returns the part before
it and the part after it. -/
def findDash : List Char → Option (List Char × List Char)
  | [] => none
  | c :: cs =>
    if isPrefixL sepChars (c :: cs) then some ([], List.drop 2 cs)
    else
      match findDash cs with
      | some (pre, post) => some (c :: pre, post)
      | none => none

/-- Match of re_summary against one (newline-stripped) line, returning the
captured name part and description. -/
def matchSummary (l : List Char) : Option (List Char × List Char) :=
  match l with
  | [] => none
  | c :: rest =>
    if isWordChar c then
      match findDash rest with
      | some (pre, post) => some (c :: pre, post)
      | none => none
    else none

/-- One parsed manifest unit: a header-only block, or a header together with
the summary name field and the description. -/
inductive Block where
  | one (header : List Char)
  | two (header sname descr : List Char)
deriving DecidableEq

/-- yield of a pending header-only block (the Python list named block holds
at most the one header name between lines). -/
def flushPending : Option (List Char) → List Block
  | none => []
  | some n => [Block.one n]

/-- The line loop of parse_footer.  A header line flushes any pending block
and starts a new one; a summary line with a pending header completes and
flushes a two-part block and without one is dropped; any other line is
skipped; a pending block left at end of input is flushed. -/
def parseLines : Option (List Char) → List (List Char) → List Block
  | pending, [] => flushPending pending
  | pending, line :: rest =>
    match matchHeader line with
    | some name => flushPending pending ++ parseLines (some name) rest
    | none =>
      match matchSummary line with
      | some (sname, descr) =>
        match pending with
        | none => parseLines none rest
        | some h => Block.two h sname descr :: parseLines none rest
      | none => parseLines pending rest

/-- Embedding of parse_footer over the list of manifest lines. -/
def parse_footer (lines : List (List Char)) : List Block :=
  parseLines none lines

theorem isWordChar_ne_eq {c : Char} (h : isWordChar c = true) : isEq c = false := by
  by_cases hc : c = '='
  · rw [hc] at h
    exact absurd h (by decide)
  · simp [isEq, hc]

/-- A line matched by the summary regex starts with a word character, hence
is not a header line. -/
theorem matchHeader_of_matchSummary {l : List Char} {n d : List Char}
    (h : matchSummary l = some (n, d)) : matchHeader l = none := by
  cases l with
  | nil => simp [matchSummary] at h
  | cons c cs =>
    have hw : isWordChar c = true := by
      by_contra hw
      simp only [matchSummary, Bool.not_eq_true] at h hw
      rw [if_neg (by rw [hw]; exact Bool.false_ne_true)] at h
      exact Option.noConfusion h
    have heq : isEq c = false := isWordChar_ne_eq hw
    simp [matchHeader, List.takeWhile, heq]

/-- C2: a well-formed header line immediately followed by a well-formed
summary line yields, from that pair, exactly the single two-part block made
of the header name, the summary name field and the verbatim description:
whatever block was pending before the pair is flushed as-is, and parsing
continues after the pair with no pending block. -/
theorem c2_header_summary_pair (pending : Option (List Char))
    (h s : List Char) (rest : List (List Char)) (n d : List Char)
    (hh : matchHeader h = some n) (hs : matchSummary s = some (n, d)) :
    parseLines pending (h :: s :: rest) =
      flushPending pending ++ (Block.two n n d :: parseLines none rest) := by
  have hns : matchHeader s = none := matchHeader_of_matchSummary hs
  simp only [parseLines, hh, hns, hs]

/-- Witness for C2 at a concrete header/summary pair whose description holds
embedded special characters. -/
theorem c2_header_summary_pair_witness :
    parseLines none
        [s2l "========   addCols   ====================================",
         s2l "addCols - Sum columns, e.g. 100% of cols; see a/b."] =
      [Block.two (s2l "addCols") (s2l "addCols")
        (s2l "Sum columns, e.g. 100% of cols; see a/b.")] := by
  have h := c2_header_summary_pair none
    (s2l "========   addCols   ====================================")
    (s2l "addCols - Sum columns, e.g. 100% of cols; see a/b.")
    [] (s2l "addCols") (s2l "Sum columns, e.g. 100% of cols; see a/b.")
    (by decide) (by decide)
  simpa using h

/-- C8: a summary line encountered while no header block is pending is
dropped: parsing continues on the remaining lines and the summary line
contributes no block, with no error. -/
theorem c8_orphan_summary_dropped (s : List Char) (rest : List (List Char))
    (n d : List Char) (hs : matchSummary s = some (n, d)) :
    parseLines none (s :: rest) = parseLines none rest := by
  have hns : matchHeader s = none := matchHeader_of_matchSummary hs
  simp only [parseLines, hns, hs]

/-- Witness for C8: a manifest whose first line is a summary yields zero
blocks from it. -/
theorem c8_orphan_summary_dropped_witness :
    parseLines none [s2l "addCols - Sum columns in a text file."] = [] := by
  have h := c8_orphan_summary_dropped (s2l "addCols - Sum columns in a text file.")
    [] (s2l "addCols") (s2l "Sum columns in a text file.") (by decide)
  simpa using h

theorem isPrefixL_iff {p l : List Char} : isPrefixL p l = true ↔ ∃ t, l = p ++ t := by
  induction p generalizing l with
  | nil =>
    simp [isPrefixL]
  | cons a as ih =>
    cases l with
    | nil =>
      simp [isPrefixL]
    | cons b bs =>
      simp only [isPrefixL, Bool.and_eq_true, beq_iff_eq, ih, List.cons_append,
        List.cons.injEq]
      constructor
      · rintro ⟨h1, t, h2⟩
        exact ⟨t, h1.symm, h2⟩
      · rintro ⟨t, h1, h2⟩
        exact ⟨h1.symm, t, h2⟩

theorem findDash_sound : ∀ {l pre post : List Char}, findDash l = some (pre, post) →
    l = pre ++ sepChars ++ post := by
  intro l
  induction l with
  | nil =>
    intro pre post h
    exact absurd h (by simp [findDash])
  | cons c cs ih =>
    intro pre post h
    by_cases hp : isPrefixL sepChars (c :: cs) = true
    · rw [findDash, if_pos hp] at h
      simp only [Option.some.injEq, Prod.mk.injEq] at h
      obtain ⟨h1, h2⟩ := h
      subst h1
      subst h2
      obtain ⟨t, ht⟩ := isPrefixL_iff.mp hp
      have hdl : List.drop 3 (sepChars ++ t) = t := by
        have hlen : sepChars.length = 3 := rfl
        rw [← hlen, List.drop_left]
      have hds : List.drop 3 (c :: cs) = List.drop 2 cs := rfl
      have ht2 : List.drop 2 cs = t := by rw [← hds, ht, hdl]
      rw [List.nil_append, ht2]
      exact ht
    · rw [findDash, if_neg hp] at h
      cases hfd : findDash cs with
      | none => rw [hfd] at h; exact absurd h (by simp)
      | some pq =>
        obtain ⟨p0, q0⟩ := pq
        rw [hfd] at h
        simp only [Option.some.injEq, Prod.mk.injEq] at h
        obtain ⟨h1, h2⟩ := h
        subst h1
        subst h2
        have := ih hfd
        simp only [List.cons_append]
        rw [← this]

theorem findDash_min : ∀ {l pre post : List Char}, findDash l = some (pre, post) →
    ∀ pre' post', l = pre' ++ sepChars ++ post' → pre.length ≤ pre'.length := by
  intro l
  induction l with
  | nil =>
    intro pre post h
    exact absurd h (by simp [findDash])
  | cons c cs ih =>
    intro pre post h pre' post' heq
    by_cases hp : isPrefixL sepChars (c :: cs) = true
    · rw [findDash, if_pos hp] at h
      simp only [Option.some.injEq, Prod.mk.injEq] at h
      rw [← h.1]
      exact Nat.zero_le _
    · rw [findDash, if_neg hp] at h
      cases hfd : findDash cs with
      | none => rw [hfd] at h; exact absurd h (by simp)
      | some pq =>
        obtain ⟨p0, q0⟩ := pq
        rw [hfd] at h
        simp only [Option.some.injEq, Prod.mk.injEq] at h
        obtain ⟨h1, h2⟩ := h
        subst h1
        cases pre' with
        | nil =>
          exfalso
          apply hp
          apply isPrefixL_iff.mpr
          exact ⟨post', by simpa using heq⟩
        | cons c' pr' =>
          simp only [List.cons_append, List.cons.injEq, List.append_assoc] at heq
          have hrec := ih hfd pr' post' (by rw [heq.2, List.append_assoc])
          simp only [List.length_cons]
          exact Nat.succ_le_succ hrec

/-- C9: the summary matcher splits at the first occurrence of " - ": the name
field is the text before the first separator and the description is
everything after it, so descriptions may contain the separator verbatim. -/
theorem c9_summary_splits_at_first_sep (l n d : List Char)
    (h : matchSummary l = some (n, d)) :
    l = n ++ sepChars ++ d ∧
      ∀ n' d', l = n' ++ sepChars ++ d' → n.length ≤ n'.length := by
  cases l with
  | nil => exact absurd h (by simp [matchSummary])
  | cons c rest =>
    have hw : isWordChar c = true := by
      by_contra hw
      rw [matchSummary, if_neg (by simpa using hw)] at h
      exact Option.noConfusion h
    rw [matchSummary, if_pos hw] at h
    cases hfd : findDash rest with
    | none => rw [hfd] at h; exact absurd h (by simp)
    | some pq =>
      obtain ⟨pre, post⟩ := pq
      rw [hfd] at h
      simp only [Option.some.injEq, Prod.mk.injEq] at h
      obtain ⟨h1, h2⟩ := h
      subst h1
      subst h2
      constructor
      · have := findDash_sound hfd
        simp only [List.cons_append, List.append_assoc] at this ⊢
        rw [← this]
      · intro n' d' heq
        cases n' with
        | nil =>
          exfalso
          simp only [List.nil_append] at heq
          have hsep : sepChars ++ d' = ' ' :: ('-' :: (' ' :: d')) := rfl
          rw [hsep] at heq
          injection heq with hc _
          rw [hc] at hw
          exact absurd hw (by decide)
        | cons c' pr' =>
          simp only [List.cons_append, List.cons.injEq, List.append_assoc] at heq
          have hrec := findDash_min hfd pr' d' (by rw [heq.2, List.append_assoc])
          simp only [List.length_cons]
          exact Nat.succ_le_succ hrec

/-- Witness for C9 on the line with two separators: the split is at the
first one and the description keeps the second verbatim. -/
theorem c9_summary_splits_at_first_sep_witness :
    s2l "A - B - C" = s2l "A" ++ sepChars ++ s2l "B - C" ∧
      (s2l "A").length ≤ (s2l "A").length := by
  have h := c9_summary_splits_at_first_sep (s2l "A - B - C") (s2l "A") (s2l "B - C")
    (by decide)
  exact ⟨h.1, h.2 (s2l "A") (s2l "B - C") h.1⟩

/-! ### Lookup tables and configuration of the main loop -/

/-- First-match association lookup; embeds Python dict indexing (the dict
literals of the script have distinct keys). -/
def lookupL {α : Type} (tbl : List (List Char × α)) (k : List Char) : Option α :=
  match tbl with
  | [] => none
  | (k', v) :: rest => if k = k' then some v else lookupL rest k

/-- Python dict.get with a default. -/
def lookupD {α : Type} (tbl : List (List Char × α)) (k : List Char) (dflt : α) : α :=
  (lookupL tbl k).getD dflt

/-- Python str.split()[0] : the first whitespace-delimited token, or none
when the string holds no token (where Python would raise IndexError). -/
def firstTokenOpt (l : List Char) : Option (List Char) :=
  match (l.dropWhile isSpaceChar).takeWhile (fun c => !isSpaceChar c) with
  | [] => none
  | c :: cs => some (c :: cs)

/-- The version string pinned in the script. -/
def VERSION : List Char := s2l "324"

/-- Mismatches between FOOTER and the source location. -/
def problematic : List (List Char × List Char) :=
  [(s2l "LiftSpec", s2l "liftSpec")]

/-- Mismatches between the header and the summary. -/
def resolve_header_and_summary_conflicts : List (List Char × List Char) :=
  [(s2l "rmFaDups", s2l "rmFaDups")]

/-- Programs whose descriptions do not meet the regex and are assigned by
hand (the values are the dedented template texts of the script). -/
def manual_descriptions : List (List Char × List Char) :=
  [ (s2l "estOrient", s2l "\nRead ESTs from a database and determine orientation based on\nestOrientInfo table or direction in gbCdnaInfo table.  Update\nPSLs so that the strand reflects the direction of transcription.\nBy default, PSLs where the direction can\x27t be determined are dropped.\n"),
    (s2l "fetchChromSizes", s2l "\nused to fetch chrom.sizes information from UCSC for the given <db>\n"),
    (s2l "overlapSelect", s2l "\nSelect records based on overlapping chromosome ranges.  The ranges are\nspecified in the selectFile, with each block specifying a range.\nRecords are copied from the inFile to outFile based on the selection\ncriteria.  Selection is based on blocks or exons rather than entire\nrange.\n"),
    (s2l "pslCDnaFilter", s2l "\nFilter cDNA alignments in psl format.  Filtering criteria are\ncomparative, selecting near best in genome alignments for each given\ncDNA and non-comparative, based only on the quality of an individual\nalignment.\n"),
    (s2l "pslHisto", s2l "\nCollect counts on PSL alignments for making histograms. These then be\nanalyzed with R, textHistogram, etc.\n"),
    (s2l "pslSwap", s2l "\nSwap target and query in psls\n"),
    (s2l "pslToBed", s2l "\ntransform a psl format file to a bed format file.\n") ]

/-- The fixed skip list. -/
def SKIP : List (List Char) := [s2l "sizeof"]

/-- Programs with a custom build template file. -/
def custom_build_scripts : List (List Char × List Char) :=
  [(s2l "fetchChromSizes", s2l "template-build-fetchChromSizes.sh")]

/-- The substitution fields appearing in the template files consumed through
Python str.format. -/
inductive TField where
  | program
  | package
  | summary
  | version
  | program_source_dir
deriving DecidableEq

/-- A parsed template: literal runs interleaved with substitution fields. -/
inductive TPiece where
  | lit (s : List Char)
  | field (f : TField)
deriving DecidableEq

abbrev Template := List TPiece

/-- Python str.format over a parsed template: each field is replaced by its
value.  (The template files the script reads are assumed to reference only
the fields their call site supplies; otherwise Python itself would abort.) -/
def render (t : Template) (v : TField → List Char) : List Char :=
  match t with
  | [] => []
  | .lit s :: rest => s ++ render rest v
  | .field f :: rest => v f ++ render rest v

/-- Python str() of the value passed for the source directory slot: the
inner string for some, the literal text None for the Python None value. -/
def optStr : Option (List Char) → List Char
  | some s => s
  | none => s2l "None"

/-- The keyword-argument valuation the main loop passes to str.format: the
program name, the lowercased package name, the description, the pinned
version and the str()-converted source directory. -/
def emitVals (program package summary psd : List Char) : TField → List Char
  | .program => program
  | .package => package
  | .summary => summary
  | .version => VERSION
  | .program_source_dir => psd

/-- The run environment: the contents of local files the script reads
(template files by name, plus the shared patch file) and the directory the
script resides in. -/
structure Config where
  readFile : List Char → Template
  patchContent : List Char
  scriptDir : List Char

/-- os.path.join on two relative components. -/
def joinP (a b : List Char) : List Char :=
  if a.isEmpty then b else a ++ s2l "/" ++ b

/-- The recipes output root: scriptDir/../../recipes. -/
def recipesDirOf (cfg : Config) : List Char :=
  joinP (joinP (joinP cfg.scriptDir (s2l "..")) (s2l "..")) (s2l "recipes")

/-- The errors the main loop can raise. -/
inductive PipeError where
  | mismatch (header summaryTok : List Char)
  | missingDescription (program : List Char)
  | indexError
deriving DecidableEq

/-- The console rendering of each error (the ValueError message of the
script, and the Python printouts of the two builtin exceptions). -/
def errMessage : PipeError → List Char
  | .mismatch h s =>
      s2l "mismatch in header and summary. header: \x27" ++ h ++
        s2l "\x27; summary: \x27" ++ s ++ s2l "\x27"
  | .missingDescription p => s2l "KeyError: \x27" ++ p ++ s2l "\x27"
  | .indexError => s2l "IndexError: list index out of range"

/-- The four generated texts of one output package, and its directory. -/
structure RenderedPackage where
  recipeDir : List Char
  metaYaml : List Char
  buildSh : List Char
  runTest : List Char
  includePatch : List Char
deriving DecidableEq

/-- What one loop iteration does: a silent continue (skip list), a continue
with the console notice Skipping program, or the writing of a package. -/
inductive Outcome where
  | skipped
  | noticed (program : List Char)
  | wrote (pkg : RenderedPackage)
deriving DecidableEq

/-- The name-resolution phase of one loop iteration (lines 160-189 of the
script): ok none is the skip-list continue, ok (some (program, description))
proceeds to the rendering phase, and error is an uncaught exception. -/
def resolveBlock (b : Block) : Except PipeError (Option (List Char × List Char)) :=
  match b with
  | .two header sname description =>
    let program0 := lookupD problematic header header
    match firstTokenOpt sname with
    | none => .error .indexError
    | some summary_program =>
      let resolved : Except PipeError (List Char) :=
        if program0 ≠ summary_program then
          match lookupL resolve_header_and_summary_conflicts program0 with
          | some p => .ok p
          | none => .error (.mismatch program0 summary_program)
        else .ok program0
      match resolved with
      | .error e => .error e
      | .ok program =>
        if program ∈ SKIP then .ok none
        else .ok (some (program, description))
  | .one program =>
    if program ∈ SKIP then .ok none
    else
      match lookupL manual_descriptions program with
      | some d => .ok (some (program, d))
      | none => .error (.missingDescription program)

/-- The rendering phase of one loop iteration (lines 191-234): compute the
package name and recipe directory, skip with a notice when no source
directory was located and no custom build script exists, and otherwise
render the three templates and the patch copy. -/
def emit (cfg : Config) (names : List ArchiveEntry) (program description : List Char) :
    Except PipeError Outcome :=
  let package := s2l "ucsc-" ++ program.map Char.toLower
  let recipe_dir := joinP (recipesDirOf cfg) package
  if (program_subdir program names).isNone && (lookupL custom_build_scripts program).isNone then
    .ok (.noticed program)
  else
    let v := emitVals program package description (optStr (program_subdir program names))
    .ok (.wrote
      { recipeDir := recipe_dir
        metaYaml := render (cfg.readFile (s2l "template-meta.yaml")) v
        buildSh := render
          (cfg.readFile (lookupD custom_build_scripts program (s2l "template-build.sh"))) v
        runTest := render (cfg.readFile (s2l "template-run_test.sh")) v
        includePatch := cfg.patchContent })

/-- One full loop iteration over a parsed block. -/
def processBlock (cfg : Config) (names : List ArchiveEntry) (b : Block) :
    Except PipeError Outcome :=
  match resolveBlock b with
  | .error e => .error e
  | .ok none => .ok .skipped
  | .ok (some pd) => emit cfg names pd.1 pd.2

/-! ### File-system model and the main loop -/

/-- The part of the file system the script touches: file contents by path,
and the set of existing directories. -/
structure FS where
  files : List Char → Option (List Char)
  dirs : List Char → Bool

theorem FS.ext' {x y : FS} (hf : x.files = y.files) (hd : x.dirs = y.dirs) : x = y := by
  cases x
  cases y
  cases hf
  cases hd
  rfl

/-- Opening a path for writing and writing the whole content: overwrites. -/
def writeF (fs : FS) (p c : List Char) : FS :=
  { fs with files := fun q => if q = p then some c else fs.files q }

/-- The guarded directory creation of the script: os.makedirs only when
os.path.exists is false. -/
def makedirs (fs : FS) (d : List Char) : FS :=
  if fs.dirs d then fs
  else { fs with dirs := fun q => if q = d then true else fs.dirs q }

/-- The write sequence of one package: ensure the directory, then write
meta.yaml, build.sh, run_test.sh and the copy of include.patch. -/
def writePackage (fs : FS) (pkg : RenderedPackage) : FS :=
  let fs1 := makedirs fs pkg.recipeDir
  let fs2 := writeF fs1 (joinP pkg.recipeDir (s2l "meta.yaml")) pkg.metaYaml
  let fs3 := writeF fs2 (joinP pkg.recipeDir (s2l "build.sh")) pkg.buildSh
  let fs4 := writeF fs3 (joinP pkg.recipeDir (s2l "run_test.sh")) pkg.runTest
  writeF fs4 (joinP pkg.recipeDir (s2l "include.patch")) pkg.includePatch

/-- The main loop over the parsed blocks: an uncaught error stops the run
with the file system as already written; a skip or notice continues; a
rendered package is written and the loop continues. -/
def runAll (cfg : Config) (names : List ArchiveEntry) : List Block → FS → FS
  | [], fs => fs
  | b :: bs, fs =>
    match processBlock cfg names b with
    | .error _ => fs
    | .ok .skipped => runAll cfg names bs fs
    | .ok (.noticed _) => runAll cfg names bs fs
    | .ok (.wrote pkg) => runAll cfg names bs (writePackage fs pkg)

/-- A primitive file-system effect. -/
inductive WriteOp where
  | mkdir (d : List Char)
  | write (p c : List Char)

def applyOp (fs : FS) : WriteOp → FS
  | .mkdir d => makedirs fs d
  | .write p c => writeF fs p c

def applyOps (fs : FS) (l : List WriteOp) : FS := l.foldl applyOp fs

/-- The effect sequence of writing one package. -/
def pkgOps (pkg : RenderedPackage) : List WriteOp :=
  [.mkdir pkg.recipeDir,
   .write (joinP pkg.recipeDir (s2l "meta.yaml")) pkg.metaYaml,
   .write (joinP pkg.recipeDir (s2l "build.sh")) pkg.buildSh,
   .write (joinP pkg.recipeDir (s2l "run_test.sh")) pkg.runTest,
   .write (joinP pkg.recipeDir (s2l "include.patch")) pkg.includePatch]

/-- The effect sequence of the whole run; it does not depend on the starting
file system. -/
def opsOf (cfg : Config) (names : List ArchiveEntry) : List Block → List WriteOp
  | [] => []
  | b :: bs =>
    match processBlock cfg names b with
    | .error _ => []
    | .ok .skipped => opsOf cfg names bs
    | .ok (.noticed _) => opsOf cfg names bs
    | .ok (.wrote pkg) => pkgOps pkg ++ opsOf cfg names bs

/-- The last content written to a path by an effect sequence, if any. -/
def lastW : List WriteOp → List Char → Option (List Char)
  | [], _ => none
  | op :: rest, q =>
    match lastW rest q with
    | some c => some c
    | none =>
      match op with
      | .write p c => if q = p then some c else none
      | .mkdir _ => none

/-- Whether an effect sequence creates a directory at a path. -/
def dirIn : List WriteOp → List Char → Bool
  | [], _ => false
  | op :: rest, q =>
    (match op with
     | .mkdir d => decide (q = d)
     | .write _ _ => false) || dirIn rest q

theorem writeF_files (fs : FS) (p c q : List Char) :
    (writeF fs p c).files q = if q = p then some c else fs.files q := rfl

theorem writeF_dirs (fs : FS) (p c q : List Char) :
    (writeF fs p c).dirs q = fs.dirs q := rfl

theorem makedirs_files (fs : FS) (d q : List Char) :
    (makedirs fs d).files q = fs.files q := by
  unfold makedirs
  split <;> rfl

theorem makedirs_dirs (fs : FS) (d q : List Char) :
    (makedirs fs d).dirs q = if q = d then true else fs.dirs q := by
  unfold makedirs
  split
  · rename_i h
    by_cases hq : q = d
    · rw [hq, if_pos rfl, h]
    · rw [if_neg hq]
  · rfl

theorem applyOps_files : ∀ (l : List WriteOp) (fs : FS) (q : List Char),
    (applyOps fs l).files q =
      match lastW l q with
      | some c => some c
      | none => fs.files q := by
  intro l
  induction l with
  | nil => intro fs q; rfl
  | cons op rest ih =>
    intro fs q
    have hstep : applyOps fs (op :: rest) = applyOps (applyOp fs op) rest := rfl
    rw [hstep, ih]
    cases hl : lastW rest q with
    | some c => simp [lastW, hl]
    | none =>
      cases op with
      | mkdir d => simp [lastW, hl, applyOp, makedirs_files]
      | write p c =>
        simp only [lastW, hl, applyOp, writeF_files]
        by_cases hq : q = p
        · simp [hq]
        · simp [hq]

theorem applyOps_dirs : ∀ (l : List WriteOp) (fs : FS) (q : List Char),
    (applyOps fs l).dirs q = (dirIn l q || fs.dirs q) := by
  intro l
  induction l with
  | nil => intro fs q; simp [applyOps, dirIn]
  | cons op rest ih =>
    intro fs q
    have hstep : applyOps fs (op :: rest) = applyOps (applyOp fs op) rest := rfl
    rw [hstep, ih]
    cases op with
    | mkdir d =>
      by_cases hq : q = d <;>
        by_cases hr : dirIn rest q = true <;>
          simp [dirIn, hq, hr, applyOp, makedirs_dirs]
    | write p c =>
      simp [dirIn, applyOp, writeF_dirs]

theorem writePackage_eq_applyOps (fs : FS) (pkg : RenderedPackage) :
    writePackage fs pkg = applyOps fs (pkgOps pkg) := rfl

theorem runAll_eq_applyOps (cfg : Config) (names : List ArchiveEntry) :
    ∀ (bs : List Block) (fs : FS),
      runAll cfg names bs fs = applyOps fs (opsOf cfg names bs) := by
  intro bs
  induction bs with
  | nil => intro fs; rfl
  | cons b rest ih =>
    intro fs
    cases hpb : processBlock cfg names b with
    | error e => simp [runAll, opsOf, hpb, applyOps]
    | ok oc =>
      cases oc with
      | skipped => simp [runAll, opsOf, hpb, ih]
      | noticed p => simp [runAll, opsOf, hpb, ih]
      | wrote pkg =>
        simp only [runAll, opsOf, hpb]
        rw [ih, writePackage_eq_applyOps]
        rw [applyOps, applyOps, applyOps, List.foldl_append]

theorem applyOps_idem (fs : FS) (l : List WriteOp) :
    applyOps (applyOps fs l) l = applyOps fs l := by
  apply FS.ext'
  · funext q
    rw [applyOps_files, applyOps_files]
    cases hl : lastW l q with
    | some c => rfl
    | none => rfl
  · funext q
    rw [applyOps_dirs, applyOps_dirs]
    cases hr : dirIn l q <;> simp [hr]

/-- C7: a second run of the main loop over the same manifest blocks, archive
listing and template environment leaves the file system exactly as the first
run did: every file write overwrites with the same bytes and directory
creation is guarded, so the pipeline is idempotent. -/
theorem c7_rerun_idempotent (cfg : Config) (names : List ArchiveEntry)
    (blocks : List Block) (fs : FS) :
    runAll cfg names blocks (runAll cfg names blocks fs) =
      runAll cfg names blocks fs := by
  rw [runAll_eq_applyOps, runAll_eq_applyOps]
  exact applyOps_idem fs (opsOf cfg names blocks)

/-! ### Claim theorems on the main loop -/

/-- A concrete run environment for evaluating the pipeline on closed inputs:
every template file is empty and the patch content is empty. -/
def cfg0 : Config :=
  { readFile := fun _ => [], patchContent := [], scriptDir := [] }

/-- A concrete empty starting file system. -/
def fs0 : FS := { files := fun _ => none, dirs := fun _ => false }

/-- C3: for a two-part block, after taking the first whitespace token of the
summary name and applying the header exception mapping, a remaining
difference with no entry in the conflict-resolution table raises the
mismatch error, whose message contains both the (mapped) header name and the
summary token verbatim, and the run stops with nothing further written. -/
theorem c3_unresolved_mismatch_raises (header sname d tok : List Char)
    (htok : firstTokenOpt sname = some tok)
    (hne : lookupD problematic header header ≠ tok)
    (hres : lookupL resolve_header_and_summary_conflicts
      (lookupD problematic header header) = none) :
    resolveBlock (.two header sname d) =
      .error (.mismatch (lookupD problematic header header) tok)
    ∧ (lookupD problematic header header) <:+:
        errMessage (.mismatch (lookupD problematic header header) tok)
    ∧ tok <:+: errMessage (.mismatch (lookupD problematic header header) tok)
    ∧ ∀ cfg names rest fs,
        runAll cfg names (Block.two header sname d :: rest) fs = fs := by
  have h1 : resolveBlock (.two header sname d) =
      .error (.mismatch (lookupD problematic header header) tok) := by
    simp only [resolveBlock, htok]
    rw [if_pos hne, hres]
  refine ⟨h1, ?_, ?_, ?_⟩
  · refine ⟨s2l "mismatch in header and summary. header: \x27",
      s2l "\x27; summary: \x27" ++ tok ++ s2l "\x27", ?_⟩
    simp [errMessage, List.append_assoc]
  · refine ⟨s2l "mismatch in header and summary. header: \x27" ++
        (lookupD problematic header header) ++ s2l "\x27; summary: \x27",
      s2l "\x27", ?_⟩
    simp [errMessage, List.append_assoc]
  · intro cfg names rest fs
    have hp : processBlock cfg names (.two header sname d) =
        .error (.mismatch (lookupD problematic header header) tok) := by
      simp [processBlock, h1]
    simp [runAll, hp]

/-- Witness for C3 on a concrete mismatching block. -/
theorem c3_unresolved_mismatch_raises_witness :
    resolveBlock (Block.two (s2l "alpha") (s2l "beta v 2") (s2l "desc")) =
      .error (.mismatch (s2l "alpha") (s2l "beta"))
    ∧ runAll cfg0 [] [Block.two (s2l "alpha") (s2l "beta v 2") (s2l "desc")] fs0 = fs0 := by
  have h := c3_unresolved_mismatch_raises (s2l "alpha") (s2l "beta v 2") (s2l "desc")
    (s2l "beta") (by decide) (by decide) (by decide)
  exact ⟨h.1, h.2.2.2 cfg0 [] [] fs0⟩

/-- C4: a header-only block for a program that is not skip-listed and has no
entry in the manual-description table fails with the lookup error, and the
run stops with no file written from that block on. -/
theorem c4_missing_manual_description (p : List Char)
    (hskip : p ∉ SKIP)
    (hman : lookupL manual_descriptions p = none) :
    resolveBlock (.one p) = .error (.missingDescription p)
    ∧ ∀ cfg names rest fs, runAll cfg names (Block.one p :: rest) fs = fs := by
  have h1 : resolveBlock (.one p) = .error (.missingDescription p) := by
    simp only [resolveBlock]
    rw [if_neg hskip, hman]
  refine ⟨h1, ?_⟩
  intro cfg names rest fs
  have hp : processBlock cfg names (.one p) = .error (.missingDescription p) := by
    simp [processBlock, h1]
  simp [runAll, hp]

/-- Witness for C4 at a concrete unknown program. -/
theorem c4_missing_manual_description_witness :
    resolveBlock (Block.one (s2l "noSuchProgram")) =
      .error (.missingDescription (s2l "noSuchProgram"))
    ∧ runAll cfg0 [] [Block.one (s2l "noSuchProgram")] fs0 = fs0 := by
  have h := c4_missing_manual_description (s2l "noSuchProgram") (by decide) (by decide)
  exact ⟨h.1, h.2 cfg0 [] [] fs0⟩

/-- C5: a block that resolves to a program with no located source directory
and no custom build script is skipped with the console notice, the loop
continues with the next program, and the file system is untouched by this
block (no directory or file is created for it). -/
theorem c5_unlocated_program_noticed (cfg : Config) (names : List ArchiveEntry)
    (b : Block) (p d : List Char) (rest : List Block) (fs : FS)
    (hres : resolveBlock b = .ok (some (p, d)))
    (hsub : program_subdir p names = none)
    (hcust : lookupL custom_build_scripts p = none) :
    processBlock cfg names b = .ok (.noticed p)
    ∧ runAll cfg names (b :: rest) fs = runAll cfg names rest fs := by
  have hemit : emit cfg names p d = .ok (.noticed p) := by
    simp [emit, hsub, hcust]
  have hp : processBlock cfg names b = .ok (.noticed p) := by
    simp [processBlock, hres, hemit]
  exact ⟨hp, by simp [runAll, hp]⟩

/-- Witness for C5 at a concrete program absent from an empty archive. -/
theorem c5_unlocated_program_noticed_witness :
    processBlock cfg0 [] (Block.two (s2l "addCols") (s2l "addCols") (s2l "Sum columns."))
      = .ok (.noticed (s2l "addCols"))
    ∧ runAll cfg0 []
        [Block.two (s2l "addCols") (s2l "addCols") (s2l "Sum columns.")] fs0 = fs0 := by
  have h := c5_unlocated_program_noticed cfg0 []
    (Block.two (s2l "addCols") (s2l "addCols") (s2l "Sum columns."))
    (s2l "addCols") (s2l "Sum columns.") [] fs0 rfl rfl rfl
  exact ⟨h.1, h.2⟩

/-- C10: a resolved program with a custom build-script entry and no located
source directory is not skipped: the package is rendered, its build.sh comes
from the custom template, the source-directory slot is filled with the
literal text None, and writing the package creates the recipe directory. -/
theorem c10_custom_build_without_subdir (cfg : Config) (names : List ArchiveEntry)
    (p d tpl : List Char)
    (hsub : program_subdir p names = none)
    (hcust : lookupL custom_build_scripts p = some tpl) :
    emit cfg names p d = .ok (.wrote
      { recipeDir := joinP (recipesDirOf cfg) (s2l "ucsc-" ++ p.map Char.toLower)
        metaYaml := render (cfg.readFile (s2l "template-meta.yaml"))
          (emitVals p (s2l "ucsc-" ++ p.map Char.toLower) d (s2l "None"))
        buildSh := render (cfg.readFile tpl)
          (emitVals p (s2l "ucsc-" ++ p.map Char.toLower) d (s2l "None"))
        runTest := render (cfg.readFile (s2l "template-run_test.sh"))
          (emitVals p (s2l "ucsc-" ++ p.map Char.toLower) d (s2l "None"))
        includePatch := cfg.patchContent })
    ∧ render [TPiece.field TField.program_source_dir]
        (emitVals p (s2l "ucsc-" ++ p.map Char.toLower) d
          (optStr (program_subdir p names))) = s2l "None"
    ∧ ∀ fs pkg, emit cfg names p d = .ok (.wrote pkg) →
        (writePackage fs pkg).dirs pkg.recipeDir = true := by
  refine ⟨?_, ?_, ?_⟩
  · simp [emit, hsub, hcust, lookupD, optStr]
  · simp [render, emitVals, hsub, optStr]
  · intro fs pkg _
    rw [writePackage_eq_applyOps, applyOps_dirs]
    simp [pkgOps, dirIn]

/-- Witness for C10 at fetchChromSizes against an empty archive listing. -/
theorem c10_custom_build_without_subdir_witness :
    emit cfg0 [] (s2l "fetchChromSizes") (s2l "x") = .ok (.wrote
      { recipeDir := joinP (recipesDirOf cfg0)
          (s2l "ucsc-" ++ (s2l "fetchChromSizes").map Char.toLower)
        metaYaml := render (cfg0.readFile (s2l "template-meta.yaml"))
          (emitVals (s2l "fetchChromSizes")
            (s2l "ucsc-" ++ (s2l "fetchChromSizes").map Char.toLower) (s2l "x")
            (s2l "None"))
        buildSh := render (cfg0.readFile (s2l "template-build-fetchChromSizes.sh"))
          (emitVals (s2l "fetchChromSizes")
            (s2l "ucsc-" ++ (s2l "fetchChromSizes").map Char.toLower) (s2l "x")
            (s2l "None"))
        runTest := render (cfg0.readFile (s2l "template-run_test.sh"))
          (emitVals (s2l "fetchChromSizes")
            (s2l "ucsc-" ++ (s2l "fetchChromSizes").map Char.toLower) (s2l "x")
            (s2l "None"))
        includePatch := cfg0.patchContent })
    ∧ render [TPiece.field TField.program_source_dir]
        (emitVals (s2l "fetchChromSizes")
          (s2l "ucsc-" ++ (s2l "fetchChromSizes").map Char.toLower) (s2l "x")
          (optStr (program_subdir (s2l "fetchChromSizes") []))) = s2l "None" := by
  have h := c10_custom_build_without_subdir cfg0 [] (s2l "fetchChromSizes") (s2l "x")
    (s2l "template-build-fetchChromSizes.sh") rfl rfl
  exact ⟨h.1, h.2.1⟩

/-- C6 counterexample: a two-part block whose header is the skip-listed
program sizeof but whose summary token differs is not dropped silently; the
run raises the mismatch error before the skip check and stops, so a later
block is never processed. -/
theorem c6_skip_list_counterexample :
    resolveBlock (Block.two (s2l "sizeof") (s2l "strange") (s2l "d")) =
      .error (.mismatch (s2l "sizeof") (s2l "strange"))
    ∧ processBlock cfg0 [] (Block.two (s2l "sizeof") (s2l "strange") (s2l "d")) ≠
        .ok .skipped
    ∧ runAll cfg0 []
        [Block.two (s2l "sizeof") (s2l "strange") (s2l "d"),
         Block.one (s2l "pslSwap")] fs0 = fs0 := by
  refine ⟨rfl, ?_, rfl⟩
  intro h
  exact Except.noConfusion h

/-- C6 amended: a header-only block for a skip-listed program, and a
two-part block for it whose summary token agrees, are dropped silently: both
yield the silent-continue outcome and leave the file system to the remaining
blocks unchanged; no output directory is produced for the program.  (A
two-part block whose summary token disagrees instead raises the mismatch
error before the skip check, which also produces no output.) -/
theorem c6_skip_list_amended (sname d : List Char) (cfg : Config)
    (names : List ArchiveEntry) (rest : List Block) (fs : FS)
    (htok : firstTokenOpt sname = some (s2l "sizeof")) :
    processBlock cfg names (Block.one (s2l "sizeof")) = .ok .skipped
    ∧ processBlock cfg names (Block.two (s2l "sizeof") sname d) = .ok .skipped
    ∧ runAll cfg names (Block.one (s2l "sizeof") :: rest) fs = runAll cfg names rest fs
    ∧ runAll cfg names (Block.two (s2l "sizeof") sname d :: rest) fs =
        runAll cfg names rest fs := by
  have h1 : resolveBlock (Block.one (s2l "sizeof")) = .ok none := rfl
  have h2 : resolveBlock (Block.two (s2l "sizeof") sname d) = .ok none := by
    simp only [resolveBlock, htok]
    rfl
  have hp1 : processBlock cfg names (Block.one (s2l "sizeof")) = .ok .skipped := by
    simp [processBlock, h1]
  have hp2 : processBlock cfg names (Block.two (s2l "sizeof") sname d) = .ok .skipped := by
    simp [processBlock, h2]
  exact ⟨hp1, hp2, by simp [runAll, hp1], by simp [runAll, hp2]⟩

/-- Witness for the amended C6 at a concrete summary line for sizeof. -/
theorem c6_skip_list_amended_witness :
    processBlock cfg0 [] (Block.one (s2l "sizeof")) = .ok .skipped
    ∧ processBlock cfg0 [] (Block.two (s2l "sizeof") (s2l "sizeof v 2") (s2l "d")) =
        .ok .skipped
    ∧ runAll cfg0 [] [Block.two (s2l "sizeof") (s2l "sizeof v 2") (s2l "d")] fs0 = fs0 := by
  have h := c6_skip_list_amended (s2l "sizeof v 2") (s2l "d") cfg0 [] [] fs0 rfl
  exact ⟨h.1, h.2.1, h.2.2.2⟩

end Ucsc
